import Mathlib

/-!
A verification development for a small ECLAT frequent-itemset miner
written in Python: `eclat.py` (the basic, full-capture variant) and
`eclat_improved.py` (the memory-optimised, count-only variant).

Transactions are modelled as lists of item tokens, tidsets as `Finset ℕ`
(Python sets of integer transaction ids), and the Python `defaultdict`
of tidsets as an insertion-ordered association list built exactly as the
source builds it.  The recursive search procedures are embedded with an
explicit iteration bound (`fuel`) so that the definitions are structural
and kernel-evaluable; the bound is always instantiated with the length
of the candidate list, which the lemmas show is sufficient, making the
out-of-fuel branch unreachable.
-/

/-- One candidate entry `(item, tidset)`, as in both Python variants: an
item token together with the set of transaction ids containing it. -/
abbrev Entry : Type := String × Finset ℕ

/-- An item-to-tidset dictionary, modelling the Python `defaultdict(set)`
as an insertion-ordered association list. -/
abbrev Dict : Type := List Entry

/-- `tids db X` is the set of (zero-based) transaction ids of `db` whose
transaction contains every item of `X`: the tidset of itemset `X`. -/
def tids (db : List (List String)) (X : Finset String) : Finset ℕ :=
  (Finset.range db.length).filter fun i => ∀ a ∈ X, a ∈ db.getD i []

/- ## The vertical dataset builder (`generate_tidsets`, `load_dataset`) -/

/-- `item_tidset[item].add(tid)` on the ordered association list: update
the first binding in place when the key is present, append a new binding
otherwise (Python dict insertion-order semantics). -/
def addTid : Dict → String → ℕ → Dict
  | [], item, tid => [(item, {tid})]
  | (k, s) :: d, item, tid =>
    if k = item then (k, insert tid s) :: d else (k, s) :: addTid d item tid

/-- One iteration of the builder loop: add transaction id `tid` to the
tidset of every token of the line. -/
def addLine (d : Dict) (tid : ℕ) (line : List String) : Dict :=
  line.foldl (fun d item => addTid d item tid) d

/-- The builder loop `for tid, line in enumerate(...)` with the running
zero-based transaction id made explicit. -/
def buildTidsets : ℕ → Dict → List (List String) → Dict
  | _, d, [] => d
  | tid, d, line :: rest => buildTidsets (tid + 1) (addLine d tid line) rest

/-- `generate_tidsets`: the vertical dataset builder of both variants on
an already-tokenised dataset, with transaction ids assigned by zero-based
position in the input. -/
def generate_tidsets (db : List (List String)) : Dict :=
  buildTidsets 0 [] db

/-- Dictionary lookup: the tidset bound to `a` (`∅` when `a` is absent). -/
def dget : Dict → String → Finset ℕ
  | [], _ => ∅
  | (k, s) :: d, a => if k = a then s else dget d a

/- ## Candidate ordering and suffix construction -/

/-- `sorted(..., key=lambda x: len(x[1]))`: stable ascending sort of
candidate entries by tidset cardinality. -/
def sortByCard (l : List Entry) : List Entry :=
  List.insertionSort (fun a b => a.2.card ≤ b.2.card) l

/-- The suffix construction shared by both variants: intersect the chosen
entry's tidset with every remaining entry's tidset, keeping the entries
whose intersection meets the threshold. -/
def build_suffix (min_support : ℕ) (tidset : Finset ℕ) (later : List Entry) :
    List Entry :=
  later.filterMap fun o =>
    let intersection := tidset ∩ o.2
    if min_support ≤ intersection.card then some (o.1, intersection) else none

/- ## The basic variant (`eclat.py`) -/

/-- The basic variant `eclat(prefix, items, min_support, frequent_itemsets)`
of `eclat.py`, embedded with state passing: the Python function mutates
`items` (popping from the end) and `frequent_itemsets` (a dict keyed by
`frozenset`); here both are threaded explicitly and the final value of
both is returned.  Records are appended in emission order; the uniqueness
theorem below shows no key is ever emitted twice, so the record list and
the dict carry the same entries.  `fuel` bounds the number of loop
iterations; it is always instantiated with `items.length`, which
suffices, so the out-of-fuel branch is unreachable. -/
def eclatAux (min_support : ℕ) :
    ℕ → List String → List Entry → List (Finset String × ℕ) →
      List Entry × List (Finset String × ℕ)
  | 0, _, items, fi => (items, fi)
  | fuel + 1, pref, items, fi =>
    match items.getLast? with
    | none => (items, fi)
    | some (item, tidset) =>
      let rest := items.dropLast
      if min_support ≤ tidset.card then
        let new_itemset := pref ++ [item]
        let r := eclatAux min_support fuel new_itemset
          (sortByCard (build_suffix min_support tidset rest))
          (fi ++ [(new_itemset.toFinset, tidset.card)])
        eclatAux min_support fuel pref rest r.2
      else
        eclatAux min_support fuel pref rest fi

/-- `eclat` with the iteration bound instantiated: the entry point of the
basic variant. -/
def eclat (min_support : ℕ) (pref : List String) (items : List Entry)
    (fi : List (Finset String × ℕ)) : List Entry × List (Finset String × ℕ) :=
  eclatAux min_support items.length pref items fi

/-- The pipeline of `eclat.py`: build the vertical dataset, sort all
candidate entries ascending by support, run `eclat` with an empty prefix
and an empty result dict, and return the accumulated `frequent_itemsets`
records. -/
def eclat_run (db : List (List String)) (min_support : ℕ) :
    List (Finset String × ℕ) :=
  (eclat min_support [] (sortByCard (generate_tidsets db)) []).2

/- ## The improved variant (`eclat_improved.py`) -/

/-- `ECLATMiner.eclat_recursive`: the count-only search of
`eclat_improved.py`.  The method mutates the instance counter
`self.nb_frequent_itemsets`; here the function returns the number of
increments it performs.  `fuel` as in `eclatAux`. -/
def eclat_recursive (min_support_count : ℕ) :
    ℕ → List String → List Entry → ℕ
  | 0, _, _ => 0
  | fuel + 1, pref, items =>
    match items with
    | [] => 0
    | (item, tidset) :: later =>
      (if min_support_count ≤ tidset.card then
        let suffix := build_suffix min_support_count tidset later
        1 + (if suffix.isEmpty then 0
             else eclat_recursive min_support_count fuel (pref ++ [item]) suffix)
      else 0)
      + eclat_recursive min_support_count fuel pref later

/-- The candidate list prepared by `ECLATMiner.mine`: the frequent
1-itemsets, sorted ascending by support. -/
def mine_candidates (db : List (List String)) (min_support_count : ℕ) :
    List Entry :=
  sortByCard ((generate_tidsets db).filter fun e => min_support_count ≤ e.2.card)

/-- `ECLATMiner.mine` (with the dataset already tokenised and the absolute
threshold already derived): filter the 1-itemsets, initialise the counter
to their number (`self.nb_frequent_itemsets = len(frequent_1_itemsets)`),
run the recursive search, and return the final counter value. -/
def mine (min_support_count : ℕ) (db : List (List String)) : ℕ :=
  (mine_candidates db min_support_count).length +
    eclat_recursive min_support_count (mine_candidates db min_support_count).length
      [] (mine_candidates db min_support_count)

/-- The number of nested recursive calls performed below a call of
`eclat_recursive` on the given candidate list: the recursion depth of the
search starting from that call. -/
def eclat_depth (min_support_count : ℕ) : ℕ → List Entry → ℕ
  | 0, _ => 0
  | _ + 1, [] => 0
  | fuel + 1, (_, tidset) :: later =>
    max
      (if min_support_count ≤ tidset.card then
        (let suffix := build_suffix min_support_count tidset later
         if suffix.isEmpty then 0
         else 1 + eclat_depth min_support_count fuel suffix)
      else 0)
      (eclat_depth min_support_count fuel later)

/- ## File loading and tokenisation -/

/-- Split a character list at every character satisfying `sep`, keeping
empty pieces (the semantics of Python `str.split(sep)` with an explicit
separator): `n` separator occurrences yield `n + 1` pieces. -/
def splitChars (sep : Char → Bool) : List Char → List (List Char)
  | [] => [[]]
  | c :: cs =>
    match splitChars sep cs with
    | [] => if sep c then [[], []] else [[c]]
    | t :: ts => if sep c then [] :: t :: ts else (c :: t) :: ts

/-- Python `line.split(' ')`: split on every single space character,
keeping the blank pieces produced by repeated spaces. -/
def splitOnSpace (line : String) : List String :=
  (splitChars (fun c => c = ' ') line.data).map fun cs => String.mk cs

/-- Python `line.strip().split()` together with the (redundant)
`if item:` guard of `load_dataset`: the whitespace-separated, non-blank
tokens of a raw line (stripping only affects blank edge pieces, which the
no-argument `split` drops anyway). -/
def pyTokens (line : String) : List String :=
  ((splitChars (fun c => c.isWhitespace) line.data).map fun cs => String.mk cs).filter
    fun tok => tok ≠ ""

/-- `ECLATMiner.load_dataset`'s dictionary, on the raw lines of the file
(each possibly carrying its trailing newline, as Python file iteration
yields them): tokenise each line and run the vertical builder. -/
def load_dataset (rawLines : List String) : Dict :=
  generate_tidsets (rawLines.map pyTokens)

/-- `generate_tidsets_from_dataset` of `eclat.py`, on the raw lines as
`readlines()` yields them (trailing newline included): each line is split
on single spaces (`line.split(' ')`), keeping blank tokens produced by
repeated spaces and leaving the newline attached to the final token. -/
def generate_tidsets_from_dataset (rawLines : List String) : Dict :=
  generate_tidsets (rawLines.map splitOnSpace)

/-- The loop of `load_dataset` together with the last value bound to the
loop variable `tid` (`none` when the loop body never ran, so that `tid`
is unbound after the loop). -/
def load_loop (tid : ℕ) (d : Dict) : List (List String) → Dict × Option ℕ
  | [] => (d, none)
  | line :: rest =>
    match load_loop (tid + 1) (addLine d tid line) rest with
    | (d2, none) => (d2, some tid)
    | (d2, some t) => (d2, some t)

/-- `ECLATMiner.load_dataset` including its epilogue
`self.nb_transactions = tid + 1`: when the loop never ran, `tid` is
unbound, that statement raises `NameError`, the generic `except` handler
catches it and the run exits fatally — modelled as `Except.error ()`.
Otherwise the dictionary and the transaction count are returned. -/
def load_dataset_run (rawLines : List String) : Except Unit (Dict × ℕ) :=
  match load_loop 0 [] (rawLines.map pyTokens) with
  | (_, none) => Except.error ()
  | (d, some t) => Except.ok (d, t + 1)

/- ## Threshold derivation -/

/-- `min_support = math.floor(get_dataset_length(...) * 0.2)` of
`eclat.py`, generalised over the ratio, in exact arithmetic. -/
def min_support_floor (n : ℕ) (r : ℚ) : ℤ := ⌊(n : ℚ) * r⌋

/-- Python `int(x)` truncates toward zero: the numerator of the reduced
fraction divided by its denominator with truncating division. -/
def int_trunc (q : ℚ) : ℤ := Int.tdiv q.num (q.den : ℤ)

/-- `self.min_support_count = int(self.nb_transactions * self.min_support_ratio)`
of `eclat_improved.py`, in exact arithmetic. -/
def min_support_count_int (n : ℕ) (r : ℚ) : ℤ := int_trunc ((n : ℚ) * r)

/- ## The example dataset -/

/-- The nine-transaction example dataset (the `transactions` table of
`eclat.py`, transaction ids made zero-based). -/
def exampleDB : List (List String) :=
  [["Bread", "Butter", "Jam"],
   ["Butter", "Coke"],
   ["Butter", "Milk"],
   ["Bread", "Butter", "Coke"],
   ["Bread", "Milk"],
   ["Butter", "Milk"],
   ["Bread", "Milk"],
   ["Bread", "Butter", "Milk", "Jam"],
   ["Bread", "Butter", "Milk"]]


/- ## The record list of the basic variant -/

/-- The records emitted by one call of the basic search, started with an
empty accumulator. -/
def eclatRecords (ms fuel : ℕ) (pref : List String) (items : List Entry) :
    List (Finset String × ℕ) :=
  (eclatAux ms fuel pref items []).2

theorem tids_mono (db : List (List String)) {X Y : Finset String} (h : X ⊆ Y) :
    tids db Y ⊆ tids db X := by
  intro i hi
  simp only [tids, Finset.mem_filter] at hi ⊢
  exact ⟨hi.1, fun a ha => hi.2 a (h ha)⟩

theorem tids_union (db : List (List String)) (X Y : Finset String) :
    tids db (X ∪ Y) = tids db X ∩ tids db Y := by
  ext i
  simp only [tids, Finset.mem_filter, Finset.mem_inter, Finset.mem_union]
  constructor
  · intro ⟨h1, h2⟩
    exact ⟨⟨h1, fun a ha => h2 a (Or.inl ha)⟩, ⟨h1, fun a ha => h2 a (Or.inr ha)⟩⟩
  · intro ⟨⟨h1, h2⟩, ⟨_, h3⟩⟩
    exact ⟨h1, fun a ha => ha.elim (h2 a) (h3 a)⟩

/-- The tidset of an extended prefix is the intersection of the tidsets of
the two one-item extensions: the invariant behind the suffix construction
in both variants. -/
theorem tids_insert_insert (db : List (List String)) (a b : String) (P : Finset String) :
    tids db (insert b (insert a P)) = tids db (insert a P) ∩ tids db (insert b P) := by
  rw [← tids_union]
  congr 1
  ext x
  simp only [Finset.mem_insert, Finset.mem_union]
  tauto

theorem dget_addTid (d : Dict) (item : String) (tid : ℕ) (a : String) :
    dget (addTid d item tid) a =
      if a = item then insert tid (dget d a) else dget d a := by
  induction d with
  | nil =>
    by_cases h : a = item
    · subst h; simp [addTid, dget]
    · have h2 : item ≠ a := fun hh => h hh.symm
      simp [addTid, dget, h, h2]
  | cons e d ih =>
    obtain ⟨k, s⟩ := e
    by_cases hk : k = item
    · subst hk
      by_cases h : a = k
      · subst h; simp [addTid, dget]
      · have h2 : k ≠ a := fun hh => h hh.symm
        simp [addTid, dget, h, h2]
    · by_cases h : k = a
      · have h2 : a ≠ item := fun hh => hk (by rw [h, hh])
        simp [addTid, dget, hk, h, h2]
      · simp [addTid, dget, hk, h, ih]

theorem keys_addTid (d : Dict) (item : String) (tid : ℕ) :
    (addTid d item tid).map Prod.fst =
      if item ∈ d.map Prod.fst then d.map Prod.fst else d.map Prod.fst ++ [item] := by
  induction d with
  | nil => simp [addTid]
  | cons e d ih =>
    obtain ⟨k, s⟩ := e
    by_cases hk : k = item
    · simp [addTid, hk]
    · simp only [addTid, if_neg hk, List.map_cons, ih]
      by_cases hm : item ∈ d.map Prod.fst <;>
        simp [hm, Ne.symm hk]

theorem nodup_keys_addTid {d : Dict} (h : (d.map Prod.fst).Nodup)
    (item : String) (tid : ℕ) : ((addTid d item tid).map Prod.fst).Nodup := by
  rw [keys_addTid]
  by_cases hm : item ∈ d.map Prod.fst
  · simpa [hm] using h
  · rw [if_neg hm]
    refine h.append (List.nodup_singleton item) ?_
    simpa [List.disjoint_singleton] using hm

theorem dget_addLine (d : Dict) (tid : ℕ) (line : List String) (a : String) :
    dget (addLine d tid line) a =
      if a ∈ line then insert tid (dget d a) else dget d a := by
  induction line generalizing d with
  | nil => simp [addLine]
  | cons item rest ih =>
    have : addLine d tid (item :: rest) = addLine (addTid d item tid) tid rest := rfl
    rw [this, ih, dget_addTid]
    by_cases hr : a ∈ rest
    · by_cases hi : a = item <;> simp [hr, hi, Finset.insert_idem]
    · by_cases hi : a = item <;> simp [hr, hi]

theorem mem_keys_addLine (d : Dict) (tid : ℕ) (line : List String) (a : String) :
    a ∈ (addLine d tid line).map Prod.fst ↔ a ∈ d.map Prod.fst ∨ a ∈ line := by
  induction line generalizing d with
  | nil => simp [addLine]
  | cons item rest ih =>
    have : addLine d tid (item :: rest) = addLine (addTid d item tid) tid rest := rfl
    rw [this, ih, keys_addTid]
    by_cases hm : item ∈ d.map Prod.fst
    · simp only [if_pos hm, List.mem_cons]
      constructor
      · rintro (h | h) <;> tauto
      · rintro (h | h | h) <;> simp_all
    · simp only [if_neg hm, List.mem_append, List.mem_cons, List.mem_singleton]
      tauto

theorem nodup_keys_addLine {d : Dict} (h : (d.map Prod.fst).Nodup)
    (tid : ℕ) (line : List String) : ((addLine d tid line).map Prod.fst).Nodup := by
  induction line generalizing d with
  | nil => simpa [addLine]
  | cons item rest ih =>
    have : addLine d tid (item :: rest) = addLine (addTid d item tid) tid rest := rfl
    rw [this]
    exact ih (nodup_keys_addTid h item tid)

theorem mem_dget_buildTidsets (db : List (List String)) :
    ∀ (t : ℕ) (d : Dict) (a : String) (x : ℕ),
      x ∈ dget (buildTidsets t d db) a ↔
        x ∈ dget d a ∨ ∃ i, i < db.length ∧ x = t + i ∧ a ∈ db.getD i [] := by
  induction db with
  | nil => simp [buildTidsets]
  | cons line rest ih =>
    intro t d a x
    have : buildTidsets t d (line :: rest) = buildTidsets (t + 1) (addLine d t line) rest := rfl
    rw [this, ih, dget_addLine]
    constructor
    · rintro (h | ⟨i, hi, hx, ha⟩)
      · by_cases hl : a ∈ line
        · rw [if_pos hl, Finset.mem_insert] at h
          rcases h with h | h
          · exact Or.inr ⟨0, by simp, by omega, by simpa using hl⟩
          · exact Or.inl h
        · rw [if_neg hl] at h
          exact Or.inl h
      · refine Or.inr ⟨i + 1, ?_, by omega, by simpa using ha⟩
        simp only [List.length_cons]
        omega
    · rintro (h | ⟨i, hi, hx, ha⟩)
      · left
        by_cases hl : a ∈ line <;> simp [hl, h]
      · match i, hi, hx, ha with
        | 0, _, hx, ha =>
          left
          have hl : a ∈ line := by simpa using ha
          rw [if_pos hl, Finset.mem_insert]
          left
          omega
        | i + 1, hi, hx, ha =>
          right
          refine ⟨i, ?_, by omega, by simpa using ha⟩
          simp only [List.length_cons] at hi
          omega

theorem mem_keys_buildTidsets (db : List (List String)) :
    ∀ (t : ℕ) (d : Dict) (a : String),
      a ∈ (buildTidsets t d db).map Prod.fst ↔
        a ∈ d.map Prod.fst ∨ ∃ line ∈ db, a ∈ line := by
  induction db with
  | nil => simp [buildTidsets]
  | cons line rest ih =>
    intro t d a
    have : buildTidsets t d (line :: rest) = buildTidsets (t + 1) (addLine d t line) rest := rfl
    rw [this, ih, mem_keys_addLine]
    simp only [List.mem_cons]
    constructor
    · rintro ((h | h) | ⟨l, hl, ha⟩)
      · exact Or.inl h
      · exact Or.inr ⟨line, Or.inl rfl, h⟩
      · exact Or.inr ⟨l, Or.inr hl, ha⟩
    · rintro (h | ⟨l, (rfl | hl), ha⟩)
      · exact Or.inl (Or.inl h)
      · exact Or.inl (Or.inr ha)
      · exact Or.inr ⟨l, hl, ha⟩

theorem nodup_keys_buildTidsets (db : List (List String)) :
    ∀ (t : ℕ) (d : Dict), (d.map Prod.fst).Nodup →
      ((buildTidsets t d db).map Prod.fst).Nodup := by
  induction db with
  | nil => intro t d h; simpa [buildTidsets]
  | cons line rest ih =>
    intro t d h
    exact ih (t + 1) _ (nodup_keys_addLine h t line)

/-- The dictionary built by the vertical builder has pairwise distinct
keys (Python dict keys are unique). -/
theorem nodup_keys_generate_tidsets (db : List (List String)) :
    ((generate_tidsets db).map Prod.fst).Nodup :=
  nodup_keys_buildTidsets db 0 [] (by simp)

/-- The builder maps each item to exactly the set of (zero-based) lines
containing it. -/
theorem dget_generate_tidsets (db : List (List String)) (a : String) :
    dget (generate_tidsets db) a = tids db {a} := by
  ext x
  rw [generate_tidsets, mem_dget_buildTidsets]
  simp only [dget, Finset.not_mem_empty, false_or, tids, Finset.mem_filter,
    Finset.mem_range, Finset.mem_singleton]
  constructor
  · rintro ⟨i, hi, hx, ha⟩
    subst hx
    exact ⟨by omega, fun b hb => by subst hb; simpa using ha⟩
  · rintro ⟨hx, h⟩
    exact ⟨x, hx, by omega, h a rfl⟩

theorem mem_keys_generate_tidsets (db : List (List String)) (a : String) :
    a ∈ (generate_tidsets db).map Prod.fst ↔ ∃ line ∈ db, a ∈ line := by
  rw [generate_tidsets, mem_keys_buildTidsets]
  simp

/-- In a dictionary with distinct keys, a binding's value agrees with
lookup. -/
theorem dget_of_mem {d : Dict} (h : (d.map Prod.fst).Nodup) {a : String}
    {t : Finset ℕ} (hm : (a, t) ∈ d) : t = dget d a := by
  induction d with
  | nil => cases hm
  | cons e d ih =>
    obtain ⟨k, s⟩ := e
    have h' : k ∉ d.map Prod.fst ∧ (d.map Prod.fst).Nodup := by simpa using h
    rcases List.mem_cons.mp hm with he | he
    · cases he
      simp [dget]
    · have hk : k ≠ a := by
        rintro rfl
        exact h'.1 (List.mem_map_of_mem Prod.fst he)
      simp only [dget, if_neg hk]
      exact ih h'.2 he

/-- Every binding of the built dictionary carries the true tidset of its
item. -/
theorem mem_generate_tidsets (db : List (List String)) {a : String}
    {t : Finset ℕ} (hm : (a, t) ∈ generate_tidsets db) : t = tids db {a} := by
  rw [dget_of_mem (nodup_keys_generate_tidsets db) hm, dget_generate_tidsets]

/- ## Properties of the ordering and of the suffix construction -/

theorem length_sortByCard (l : List Entry) : (sortByCard l).length = l.length :=
  List.length_insertionSort _ l

theorem mem_sortByCard {l : List Entry} {e : Entry} : e ∈ sortByCard l ↔ e ∈ l :=
  List.mem_insertionSort _

theorem map_fst_sortByCard_perm (l : List Entry) :
    ((sortByCard l).map Prod.fst).Perm (l.map Prod.fst) :=
  (List.perm_insertionSort _ l).map Prod.fst

theorem length_build_suffix (ms : ℕ) (t : Finset ℕ) (later : List Entry) :
    (build_suffix ms t later).length ≤ later.length :=
  List.length_filterMap_le _ _

theorem mem_build_suffix {ms : ℕ} {t : Finset ℕ} {later : List Entry}
    {b : String} {u : Finset ℕ} :
    (b, u) ∈ build_suffix ms t later ↔
      ∃ tb, (b, tb) ∈ later ∧ u = t ∩ tb ∧ ms ≤ (t ∩ tb).card := by
  simp only [build_suffix, List.mem_filterMap]
  constructor
  · rintro ⟨⟨c, tb⟩, hm, hf⟩
    by_cases h : ms ≤ (t ∩ tb).card
    · simp only [if_pos h, Option.some.injEq, Prod.mk.injEq] at hf
      exact ⟨tb, hf.1 ▸ hm, hf.2.symm, h⟩
    · simp [if_neg h] at hf
  · rintro ⟨tb, hm, rfl, h⟩
    exact ⟨(b, tb), hm, by simp [if_pos h]⟩

theorem map_fst_build_suffix (ms : ℕ) (t : Finset ℕ) (later : List Entry) :
    ((build_suffix ms t later).map Prod.fst).Sublist (later.map Prod.fst) := by
  induction later with
  | nil => simp [build_suffix]
  | cons e rest ih =>
    obtain ⟨b, tb⟩ := e
    by_cases h : ms ≤ (t ∩ tb).card
    · have he : build_suffix ms t ((b, tb) :: rest) =
          (b, t ∩ tb) :: build_suffix ms t rest := by
        simp [build_suffix, List.filterMap_cons, h]
      rw [he, List.map_cons, List.map_cons]
      exact ih.cons₂ b
    · have he : build_suffix ms t ((b, tb) :: rest) = build_suffix ms t rest := by
        simp [build_suffix, List.filterMap_cons, h]
      rw [he, List.map_cons]
      exact ih.cons b


theorem eclatAux_snd (ms : ℕ) :
    ∀ (fuel : ℕ) (pref : List String) (items : List Entry)
      (fi : List (Finset String × ℕ)),
      (eclatAux ms fuel pref items fi).2 = fi ++ eclatRecords ms fuel pref items := by
  intro fuel
  induction fuel with
  | zero => intro pref items fi; simp [eclatAux, eclatRecords]
  | succ fuel ih =>
    intro pref items fi
    rcases h : items.getLast? with _ | ⟨item, tidset⟩
    · simp [eclatAux, eclatRecords, h]
    · by_cases hc : ms ≤ tidset.card
      · simp only [eclatAux, eclatRecords, h, if_pos hc]
        rw [ih, ih, ih, ih]
        simp [List.append_assoc]
      · simp only [eclatAux, eclatRecords, h, if_neg hc]
        rw [ih, ih]
        simp

theorem eclatRecords_nil (ms fuel : ℕ) (pref : List String) :
    eclatRecords ms fuel pref [] = [] := by
  cases fuel <;> simp [eclatRecords, eclatAux]

theorem eclatRecords_concat (ms fuel : ℕ) (pref : List String) (xs : List Entry)
    (a : String) (t : Finset ℕ) :
    eclatRecords ms (fuel + 1) pref (xs ++ [(a, t)]) =
      if ms ≤ t.card then
        ((pref ++ [a]).toFinset, t.card) ::
          (eclatRecords ms fuel (pref ++ [a]) (sortByCard (build_suffix ms t xs)) ++
            eclatRecords ms fuel pref xs)
      else eclatRecords ms fuel pref xs := by
  by_cases hc : ms ≤ t.card
  · simp only [eclatRecords, eclatAux, List.getLast?_concat, List.dropLast_concat,
      if_pos hc]
    rw [eclatAux_snd, eclatAux_snd]
    simp [eclatRecords, List.append_assoc]
  · simp only [eclatRecords, eclatAux, List.getLast?_concat, List.dropLast_concat,
      if_neg hc]

theorem toFinset_concat (p : List String) (a : String) :
    (p ++ [a]).toFinset = insert a p.toFinset := by
  ext x
  simp [or_comm]

/- ## Characterisation of the basic search's output -/

/-- Soundness and completeness of the basic recursive search: under the
invariants established at the call site (distinct candidate names, names
disjoint from the prefix, every candidate carrying the tidset of the
prefix extended by that candidate), the emitted records are exactly the
extensions of the prefix by a non-empty choice of candidate names whose
tidset meets the threshold, each recorded with its true support. -/
theorem mem_eclatRecords (db : List (List String)) (ms : ℕ) :
    ∀ (fuel : ℕ) (pref : List String) (items : List Entry),
      items.length ≤ fuel →
      (items.map Prod.fst).Nodup →
      (∀ a ∈ items.map Prod.fst, a ∉ pref) →
      (∀ e ∈ items, e.2 = tids db (insert e.1 pref.toFinset)) →
      ∀ (F : Finset String) (s : ℕ),
        (F, s) ∈ eclatRecords ms fuel pref items ↔
          ∃ S : Finset String, S.Nonempty ∧ (∀ a ∈ S, a ∈ items.map Prod.fst) ∧
            F = pref.toFinset ∪ S ∧ s = (tids db F).card ∧ ms ≤ s := by
  intro fuel
  induction fuel with
  | zero =>
    intro pref items hlen hnd hdisj htid F s
    have hnil : items = [] := List.length_eq_zero.mp (Nat.le_zero.mp hlen)
    subst hnil
    rw [eclatRecords_nil]
    simp only [List.not_mem_nil, false_iff]
    rintro ⟨S, hSne, hSsub, -⟩
    obtain ⟨b, hb⟩ := hSne
    simpa using hSsub b hb
  | succ fuel ih =>
    intro pref items hlen hnd hdisj htid F s
    rcases List.eq_nil_or_concat items with hnil | ⟨xs, e, hcat⟩
    · subst hnil
      rw [eclatRecords_nil]
      simp only [List.not_mem_nil, false_iff]
      rintro ⟨S, hSne, hSsub, -⟩
      obtain ⟨b, hb⟩ := hSne
      simpa using hSsub b hb
    · obtain ⟨a, t⟩ := e
      rw [List.concat_eq_append] at hcat
      subst hcat
      have hmem_names : ∀ b : String,
          b ∈ (xs ++ [(a, t)]).map Prod.fst ↔ b ∈ xs.map Prod.fst ∨ b = a := by
        intro b; simp
      have hx : (xs.map Prod.fst).Nodup ∧ a ∉ xs.map Prod.fst := by
        have h2 : (xs.map Prod.fst ++ [a]).Nodup := by simpa using hnd
        rw [List.nodup_append] at h2
        exact ⟨h2.1, fun hm => h2.2.2 hm (by simp)⟩
      have hnx : (xs.map Prod.fst).Nodup := hx.1
      have hax : a ∉ xs.map Prod.fst := hx.2
      have hpa : a ∉ pref := hdisj a (by simp)
      have ht : t = tids db (insert a pref.toFinset) := htid (a, t) (by simp)
      have hlen2 : xs.length ≤ fuel := by
        have h3 := hlen
        simp only [List.length_append, List.length_cons, List.length_nil] at h3
        omega
      have hPa : pref.toFinset ∪ {a} = insert a pref.toFinset := by
        ext x; simp [or_comm]
      have hsfx_names : ∀ b ∈ (sortByCard (build_suffix ms t xs)).map Prod.fst,
          b ∈ xs.map Prod.fst := by
        intro b hb
        have h4 := (map_fst_sortByCard_perm (build_suffix ms t xs)).mem_iff.mp hb
        exact (map_fst_build_suffix ms t xs).subset h4
      have hsfx_nd : ((sortByCard (build_suffix ms t xs)).map Prod.fst).Nodup :=
        ((map_fst_sortByCard_perm _).nodup_iff).mpr
          ((map_fst_build_suffix ms t xs).nodup hnx)
      have hsfx_disj : ∀ b ∈ (sortByCard (build_suffix ms t xs)).map Prod.fst,
          b ∉ pref ++ [a] := by
        intro b hb
        have hbx := hsfx_names b hb
        simp only [List.mem_append, List.mem_singleton]
        rintro (h | rfl)
        · exact hdisj b ((hmem_names b).mpr (Or.inl hbx)) h
        · exact hax hbx
      have hsfx_tid : ∀ e ∈ sortByCard (build_suffix ms t xs),
          e.2 = tids db (insert e.1 (pref ++ [a]).toFinset) := by
        intro e he
        obtain ⟨b, u⟩ := e
        rw [mem_sortByCard] at he
        obtain ⟨tb, htb, rfl, hcard⟩ := mem_build_suffix.mp he
        have htb2 : tb = tids db (insert b pref.toFinset) :=
          htid (b, tb) (by simp [htb])
        show t ∩ tb = tids db (insert b (pref ++ [a]).toFinset)
        rw [toFinset_concat, tids_insert_insert, ← ht, ← htb2]
      have hsfx_len : (sortByCard (build_suffix ms t xs)).length ≤ fuel := by
        rw [length_sortByCard]
        exact le_trans (length_build_suffix ms t xs) hlen2
      have hentry : ∀ b ∈ xs.map Prod.fst, ∃ tb, (b, tb) ∈ xs := by
        intro b hb
        obtain ⟨⟨b2, tb⟩, hm, heq⟩ := List.mem_map.mp hb
        exact ⟨tb, by rwa [show b2 = b from heq] at hm⟩
      have IH1 := ih (pref ++ [a]) (sortByCard (build_suffix ms t xs))
        hsfx_len hsfx_nd hsfx_disj hsfx_tid
      have IH2 := ih pref xs hlen2 hnx
        (fun b hb => hdisj b ((hmem_names b).mpr (Or.inl hb)))
        (fun e he => htid e (by simp [he]))
      have hthrough : ∀ S : Finset String, a ∈ S → F = pref.toFinset ∪ S →
          s = (tids db F).card → ms ≤ s → ms ≤ t.card := by
        intro S haS hF hs hms
        have hsub2 : insert a pref.toFinset ⊆ pref.toFinset ∪ S := by
          intro x hx
          rcases Finset.mem_insert.mp hx with rfl | hx
          · exact Finset.mem_union_right _ haS
          · exact Finset.mem_union_left _ hx
        have h5 : s ≤ t.card := by
          rw [hs, hF, ht]
          exact Finset.card_le_card (tids_mono db hsub2)
        omega
      rw [eclatRecords_concat]
      by_cases hc : ms ≤ t.card
      · rw [if_pos hc]
        simp only [List.mem_cons, List.mem_append]
        constructor
        · rintro (heq | hin1 | hin2)
          · simp only [Prod.mk.injEq] at heq
            obtain ⟨hF, hs⟩ := heq
            refine ⟨{a}, ⟨a, by simp⟩, ?_, ?_, ?_, ?_⟩
            · intro b hb
              have hba := Finset.mem_singleton.mp hb
              subst hba
              exact (hmem_names b).mpr (Or.inr rfl)
            · rw [hF, toFinset_concat]
              exact hPa.symm
            · rw [hs, hF, toFinset_concat, ht]
            · rw [hs]; exact hc
          · obtain ⟨S2, hS2ne, hS2sub, hF, hs, hms⟩ := (IH1 F s).mp hin1
            refine ⟨insert a S2, ⟨a, Finset.mem_insert_self a S2⟩, ?_, ?_, hs, hms⟩
            · intro b hb
              rcases Finset.mem_insert.mp hb with rfl | hb
              · exact (hmem_names b).mpr (Or.inr rfl)
              · exact (hmem_names b).mpr (Or.inl (hsfx_names b (hS2sub b hb)))
            · rw [hF, toFinset_concat, Finset.insert_union, ← Finset.union_insert]
          · obtain ⟨S2, hS2ne, hS2sub, hF, hs, hms⟩ := (IH2 F s).mp hin2
            exact ⟨S2, hS2ne, fun b hb => (hmem_names b).mpr (Or.inl (hS2sub b hb)),
              hF, hs, hms⟩
        · rintro ⟨S, hSne, hSsub, hF, hs, hms⟩
          by_cases haS : a ∈ S
          · by_cases hSa : S = {a}
            · left
              subst hSa
              simp only [Prod.mk.injEq]
              constructor
              · rw [hF, toFinset_concat, hPa]
              · rw [hs, hF, hPa, ht]
            · right; left
              have hS2 : (S.erase a).Nonempty := by
                rw [Finset.nonempty_iff_ne_empty]
                intro hemp
                apply hSa
                apply Finset.Subset.antisymm
                · intro x hxS
                  by_cases hxa : x = a
                  · simp [hxa]
                  · exact absurd (Finset.mem_erase.mpr ⟨hxa, hxS⟩) (by simp [hemp])
                · intro x hxS
                  have hxa := Finset.mem_singleton.mp hxS
                  subst hxa
                  exact haS
              have himg : ∀ b ∈ S.erase a,
                  b ∈ (sortByCard (build_suffix ms t xs)).map Prod.fst := by
                intro b hb
                obtain ⟨hba, hbS⟩ := Finset.mem_erase.mp hb
                have hbx : b ∈ xs.map Prod.fst := by
                  rcases (hmem_names b).mp (hSsub b hbS) with h | h
                  · exact h
                  · exact absurd h hba
                obtain ⟨tb, htbmem⟩ := hentry b hbx
                have htb2 : tb = tids db (insert b pref.toFinset) :=
                  htid (b, tb) (by simp [htbmem])
                have hsub3 : insert b (insert a pref.toFinset) ⊆ pref.toFinset ∪ S := by
                  intro x hxx
                  rcases Finset.mem_insert.mp hxx with rfl | hxx
                  · exact Finset.mem_union_right _ hbS
                  · rcases Finset.mem_insert.mp hxx with rfl | hxx
                    · exact Finset.mem_union_right _ haS
                    · exact Finset.mem_union_left _ hxx
                have hcard3 : ms ≤ (t ∩ tb).card := by
                  have h6 : (t ∩ tb) = tids db (insert b (insert a pref.toFinset)) := by
                    rw [ht, htb2, ← tids_insert_insert]
                  rw [h6]
                  calc ms ≤ s := hms
                    _ = (tids db (pref.toFinset ∪ S)).card := by rw [hs, hF]
                    _ ≤ _ := Finset.card_le_card (tids_mono db hsub3)
                have hbs : (b, t ∩ tb) ∈ build_suffix ms t xs :=
                  mem_build_suffix.mpr ⟨tb, htbmem, rfl, hcard3⟩
                exact List.mem_map.mpr ⟨(b, t ∩ tb), mem_sortByCard.mpr hbs, rfl⟩
              refine (IH1 F s).mpr ⟨S.erase a, hS2, himg, ?_, hs, hms⟩
              rw [toFinset_concat, Finset.insert_union, ← Finset.union_insert,
                Finset.insert_erase haS]
              exact hF
          · right; right
            refine (IH2 F s).mpr ⟨S, hSne, ?_, hF, hs, hms⟩
            intro b hb
            rcases (hmem_names b).mp (hSsub b hb) with h | h
            · exact h
            · exact absurd (h ▸ hb) haS
      · rw [if_neg hc]
        constructor
        · intro hin2
          obtain ⟨S2, hS2ne, hS2sub, hF, hs, hms⟩ := (IH2 F s).mp hin2
          exact ⟨S2, hS2ne, fun b hb => (hmem_names b).mpr (Or.inl (hS2sub b hb)),
            hF, hs, hms⟩
        · rintro ⟨S, hSne, hSsub, hF, hs, hms⟩
          have haS : a ∉ S := fun haS => hc (hthrough S haS hF hs hms)
          refine (IH2 F s).mpr ⟨S, hSne, ?_, hF, hs, hms⟩
          intro b hb
          rcases (hmem_names b).mp (hSsub b hb) with h | h
          · exact h
          · exact absurd (h ▸ hb) haS

/-- The invariants of the basic search are preserved from a call to the
recursive call on the sorted suffix. -/
theorem suffix_invariants (db : List (List String)) (ms : ℕ) (pref : List String)
    (xs : List Entry) (a : String) (t : Finset ℕ)
    (hnd : ((xs ++ [(a, t)]).map Prod.fst).Nodup)
    (hdisj : ∀ b ∈ (xs ++ [(a, t)]).map Prod.fst, b ∉ pref)
    (htid : ∀ e ∈ xs ++ [(a, t)], e.2 = tids db (insert e.1 pref.toFinset)) :
    (∀ b ∈ (sortByCard (build_suffix ms t xs)).map Prod.fst, b ∈ xs.map Prod.fst) ∧
      ((sortByCard (build_suffix ms t xs)).map Prod.fst).Nodup ∧
      (∀ b ∈ (sortByCard (build_suffix ms t xs)).map Prod.fst, b ∉ pref ++ [a]) ∧
      (∀ e ∈ sortByCard (build_suffix ms t xs),
        e.2 = tids db (insert e.1 (pref ++ [a]).toFinset)) := by
  have hx : (xs.map Prod.fst).Nodup ∧ a ∉ xs.map Prod.fst := by
    have h2 : (xs.map Prod.fst ++ [a]).Nodup := by simpa using hnd
    rw [List.nodup_append] at h2
    exact ⟨h2.1, fun hm => h2.2.2 hm (by simp)⟩
  have ht : t = tids db (insert a pref.toFinset) := htid (a, t) (by simp)
  have hsfx_names : ∀ b ∈ (sortByCard (build_suffix ms t xs)).map Prod.fst,
      b ∈ xs.map Prod.fst := by
    intro b hb
    have h4 := (map_fst_sortByCard_perm (build_suffix ms t xs)).mem_iff.mp hb
    exact (map_fst_build_suffix ms t xs).subset h4
  refine ⟨hsfx_names, ?_, ?_, ?_⟩
  · exact ((map_fst_sortByCard_perm _).nodup_iff).mpr
      ((map_fst_build_suffix ms t xs).nodup hx.1)
  · intro b hb
    have hbx := hsfx_names b hb
    simp only [List.mem_append, List.mem_singleton]
    rintro (h | rfl)
    · exact hdisj b (by simp [hbx]) h
    · exact hx.2 hbx
  · intro e he
    obtain ⟨b, u⟩ := e
    rw [mem_sortByCard] at he
    obtain ⟨tb, htb, rfl, hcard⟩ := mem_build_suffix.mp he
    have htb2 : tb = tids db (insert b pref.toFinset) := htid (b, tb) (by simp [htb])
    show t ∩ tb = tids db (insert b (pref ++ [a]).toFinset)
    rw [toFinset_concat, tids_insert_insert, ← ht, ← htb2]

/-- No two records emitted by the basic search carry the same itemset:
each frequent itemset is generated exactly once. -/
theorem nodup_eclatRecords (db : List (List String)) (ms : ℕ) :
    ∀ (fuel : ℕ) (pref : List String) (items : List Entry),
      items.length ≤ fuel →
      (items.map Prod.fst).Nodup →
      (∀ a ∈ items.map Prod.fst, a ∉ pref) →
      (∀ e ∈ items, e.2 = tids db (insert e.1 pref.toFinset)) →
      ((eclatRecords ms fuel pref items).map Prod.fst).Nodup := by
  intro fuel
  induction fuel with
  | zero =>
    intro pref items hlen _ _ _
    have hnil : items = [] := List.length_eq_zero.mp (Nat.le_zero.mp hlen)
    subst hnil
    rw [eclatRecords_nil]
    exact List.nodup_nil
  | succ fuel ih =>
    intro pref items hlen hnd hdisj htid
    rcases List.eq_nil_or_concat items with hnil | ⟨xs, e, hcat⟩
    · subst hnil
      rw [eclatRecords_nil]
      exact List.nodup_nil
    · obtain ⟨a, t⟩ := e
      rw [List.concat_eq_append] at hcat
      subst hcat
      have hx : (xs.map Prod.fst).Nodup ∧ a ∉ xs.map Prod.fst := by
        have h2 : (xs.map Prod.fst ++ [a]).Nodup := by simpa using hnd
        rw [List.nodup_append] at h2
        exact ⟨h2.1, fun hm => h2.2.2 hm (by simp)⟩
      have hnx : (xs.map Prod.fst).Nodup := hx.1
      have hax : a ∉ xs.map Prod.fst := hx.2
      have hpa : a ∉ pref := hdisj a (by simp)
      have hlen2 : xs.length ≤ fuel := by
        have h3 := hlen
        simp only [List.length_append, List.length_cons, List.length_nil] at h3
        omega
      obtain ⟨hsfx_names, hsfx_nd, hsfx_disj, hsfx_tid⟩ :=
        suffix_invariants db ms pref xs a t hnd hdisj htid
      have hsfx_len : (sortByCard (build_suffix ms t xs)).length ≤ fuel := by
        rw [length_sortByCard]
        exact le_trans (length_build_suffix ms t xs) hlen2
      have hdisjx : ∀ b ∈ xs.map Prod.fst, b ∉ pref :=
        fun b hb => hdisj b (by simp [hb])
      have htidx : ∀ e ∈ xs, e.2 = tids db (insert e.1 pref.toFinset) :=
        fun e he => htid e (by simp [he])
      have hN1 := ih (pref ++ [a]) (sortByCard (build_suffix ms t xs))
        hsfx_len hsfx_nd hsfx_disj hsfx_tid
      have hN2 := ih pref xs hlen2 hnx hdisjx htidx
      have hM1 := mem_eclatRecords db ms fuel (pref ++ [a])
        (sortByCard (build_suffix ms t xs)) hsfx_len hsfx_nd hsfx_disj hsfx_tid
      have hM2 := mem_eclatRecords db ms fuel pref xs hlen2 hnx hdisjx htidx
      rw [eclatRecords_concat]
      by_cases hc : ms ≤ t.card
      · rw [if_pos hc, List.map_cons, List.map_append, List.nodup_cons]
        refine ⟨?_, ?_⟩
        · rw [List.mem_append]
          rintro (hk | hk)
          · obtain ⟨⟨F1, s1⟩, hmem, hkey⟩ := List.mem_map.mp hk
            obtain ⟨S2, hS2ne, hS2sub, hF1, -, -⟩ := (hM1 F1 s1).mp hmem
            obtain ⟨b, hb⟩ := hS2ne
            have hbx : b ∈ xs.map Prod.fst := hsfx_names b (hS2sub b hb)
            have hbF : b ∈ F1 := by
              rw [hF1]
              exact Finset.mem_union_right _ hb
            have hkey2 : F1 = (pref ++ [a]).toFinset := hkey
            rw [hkey2, toFinset_concat] at hbF
            rcases Finset.mem_insert.mp hbF with rfl | hbP
            · exact hax hbx
            · exact hdisj b (by simp [hbx]) (List.mem_toFinset.mp hbP)
          · obtain ⟨⟨F2, s2⟩, hmem, hkey⟩ := List.mem_map.mp hk
            obtain ⟨S2, hS2ne, hS2sub, hF2, -, -⟩ := (hM2 F2 s2).mp hmem
            have hkey2 : F2 = (pref ++ [a]).toFinset := hkey
            have haF : a ∈ F2 := by
              rw [hkey2, toFinset_concat]
              exact Finset.mem_insert_self a _
            rw [hF2] at haF
            rcases Finset.mem_union.mp haF with haP | haS
            · exact hpa (List.mem_toFinset.mp haP)
            · exact hax (hS2sub a haS)
        · rw [List.nodup_append]
          refine ⟨hN1, hN2, ?_⟩
          intro F0 hk1 hk2
          obtain ⟨⟨F1, s1⟩, hmem1, hkey1⟩ := List.mem_map.mp hk1
          obtain ⟨⟨F2, s2⟩, hmem2, hkey2⟩ := List.mem_map.mp hk2
          obtain ⟨S1, -, -, hF1, -, -⟩ := (hM1 F1 s1).mp hmem1
          obtain ⟨S2, -, hS2sub, hF2, -, -⟩ := (hM2 F2 s2).mp hmem2
          have ha1 : a ∈ F1 := by
            rw [hF1, toFinset_concat]
            exact Finset.mem_union_left _ (Finset.mem_insert_self a _)
          have ha2 : a ∉ F2 := by
            rw [hF2]
            intro hmem
            rcases Finset.mem_union.mp hmem with haP | haS
            · exact hpa (List.mem_toFinset.mp haP)
            · exact hax (hS2sub a haS)
          have hk1e : F1 = F0 := hkey1
          have hk2e : F2 = F0 := hkey2
          rw [hk1e] at ha1
          rw [hk2e] at ha2
          exact ha2 ha1
      · rw [if_neg hc]
        exact hN2

/- ## The pipeline of the basic variant -/

theorem nodup_root_names (db : List (List String)) :
    ((sortByCard (generate_tidsets db)).map Prod.fst).Nodup :=
  ((map_fst_sortByCard_perm _).nodup_iff).mpr (nodup_keys_generate_tidsets db)

theorem root_tid_invariant (db : List (List String)) :
    ∀ e ∈ sortByCard (generate_tidsets db),
      e.2 = tids db (insert e.1 ([] : List String).toFinset) := by
  intro e he
  rw [mem_sortByCard] at he
  obtain ⟨a2, t2⟩ := e
  have h5 := mem_generate_tidsets db he
  simpa using h5

/-- Membership in the result of the `eclat.py` pipeline: a record appears
iff its itemset is a non-empty set of items occurring in the dataset whose
support meets the threshold, and its recorded support is the true
support. -/
theorem mem_eclat_run (db : List (List String)) (ms : ℕ) (F : Finset String) (s : ℕ) :
    (F, s) ∈ eclat_run db ms ↔
      F.Nonempty ∧ (∀ a ∈ F, ∃ line ∈ db, a ∈ line) ∧
        s = (tids db F).card ∧ ms ≤ s := by
  have h := mem_eclatRecords db ms (sortByCard (generate_tidsets db)).length []
    (sortByCard (generate_tidsets db)) le_rfl (nodup_root_names db)
    (by simp) (root_tid_invariant db) F s
  have hrun : eclat_run db ms =
      eclatRecords ms (sortByCard (generate_tidsets db)).length []
        (sortByCard (generate_tidsets db)) := rfl
  rw [hrun, h]
  constructor
  · rintro ⟨S, hSne, hSsub, hF, hs, hms⟩
    have hFS : F = S := by simpa using hF
    subst hFS
    refine ⟨hSne, ?_, hs, hms⟩
    intro b hb
    have hb2 := (map_fst_sortByCard_perm _).mem_iff.mp (hSsub b hb)
    exact (mem_keys_generate_tidsets db b).mp hb2
  · rintro ⟨hFne, hocc, hs, hms⟩
    refine ⟨F, hFne, ?_, by simp, hs, hms⟩
    intro b hb
    exact (map_fst_sortByCard_perm _).mem_iff.mpr
      ((mem_keys_generate_tidsets db b).mpr (hocc b hb))

/-- The itemsets recorded by the `eclat.py` pipeline are pairwise
distinct, for every dataset and threshold. -/
theorem nodup_keys_eclat_run (db : List (List String)) (ms : ℕ) :
    ((eclat_run db ms).map Prod.fst).Nodup := by
  have hrun : eclat_run db ms =
      eclatRecords ms (sortByCard (generate_tidsets db)).length []
        (sortByCard (generate_tidsets db)) := rfl
  rw [hrun]
  exact nodup_eclatRecords db ms _ [] _ le_rfl (nodup_root_names db) (by simp)
    (root_tid_invariant db)

/- ## Support counting (naive linear scan) -/

/-- The support of a single item is the number of transactions containing
it, counted by a naive linear scan of the transaction list. -/
theorem card_tids_singleton (db : List (List String)) (a : String) :
    (tids db {a}).card = db.countP fun line => decide (a ∈ line) := by
  induction db using List.reverseRecOn with
  | nil => simp [tids]
  | append_singleton xs l ih =>
    rw [tids]
    have hlen : (xs ++ [l]).length = xs.length + 1 := by simp
    rw [hlen, Finset.range_succ, Finset.filter_insert]
    have hfilter : ((Finset.range xs.length).filter
        fun i => ∀ b ∈ ({a} : Finset String), b ∈ (xs ++ [l]).getD i []) =
        (Finset.range xs.length).filter
          fun i => ∀ b ∈ ({a} : Finset String), b ∈ xs.getD i [] := by
      apply Finset.filter_congr
      intro i hi
      rw [List.getD_append xs [l] [] i (Finset.mem_range.mp hi)]
    have hlast : (xs ++ [l]).getD xs.length [] = l := by
      rw [List.getD_append_right xs [l] [] xs.length le_rfl]
      simp
    rw [List.countP_append]
    by_cases hl : a ∈ l
    · rw [if_pos (by simp [hlast, hl])]
      rw [Finset.card_insert_of_not_mem (by simp), hfilter]
      rw [← tids, ih]
      simp [hl]
    · rw [if_neg (by simp [hlast, hl])]
      rw [hfilter, ← tids, ih]
      simp [hl]

/- ## The loader epilogue -/

theorem load_loop_snd_cons (lines : List (List String)) :
    ∀ (tid : ℕ) (d : Dict) (line : List String),
      (load_loop tid d (line :: lines)).2 = some (tid + lines.length) := by
  induction lines with
  | nil => intro tid d line; rfl
  | cons r rs ih =>
    intro tid d line
    have h := ih (tid + 1) (addLine d tid line) r
    rcases hres : load_loop (tid + 1) (addLine d tid line) (r :: rs) with ⟨d2, o⟩
    rw [hres] at h
    simp only at h
    subst h
    have hunfold : load_loop tid d (line :: r :: rs) =
        match load_loop (tid + 1) (addLine d tid line) (r :: rs) with
        | (d2, none) => (d2, some tid)
        | (d2, some t) => (d2, some t) := rfl
    rw [hunfold, hres]
    show some (tid + 1 + rs.length) = some (tid + (r :: rs).length)
    rw [List.length_cons]
    congr 1
    omega

/-- When `load_dataset` succeeds, the reported transaction count is the
number of input lines, and it is positive (the empty input never yields a
successful count of zero: it errors out instead). -/
theorem load_dataset_run_ok (rawLines : List String) (d : Dict) (n : ℕ)
    (h : load_dataset_run rawLines = Except.ok (d, n)) :
    n = rawLines.length ∧ 0 < n := by
  cases rawLines with
  | nil => simp [load_dataset_run, load_loop] at h
  | cons r rs =>
    have h2 := load_loop_snd_cons (rs.map pyTokens) 0 [] (pyTokens r)
    rw [load_dataset_run] at h
    simp only [List.map_cons] at h
    rcases hres : load_loop 0 [] (pyTokens r :: rs.map pyTokens) with ⟨d2, o⟩
    rw [hres] at h h2
    simp only at h2
    subst h2
    simp only [Except.ok.injEq, Prod.mk.injEq] at h
    obtain ⟨-, hn⟩ := h
    subst hn
    simp only [List.length_cons, List.length_map]
    omega

/- ## Final state of the basic variant's candidate list -/

/-- After the basic search returns, the candidate list it was handed is
empty: every entry has been popped by the `while items:` loop. -/
theorem eclatAux_fst (ms : ℕ) :
    ∀ (fuel : ℕ) (pref : List String) (items : List Entry)
      (fi : List (Finset String × ℕ)),
      items.length ≤ fuel → (eclatAux ms fuel pref items fi).1 = [] := by
  intro fuel
  induction fuel with
  | zero =>
    intro pref items fi hlen
    have hnil : items = [] := List.length_eq_zero.mp (Nat.le_zero.mp hlen)
    subst hnil
    rfl
  | succ fuel ih =>
    intro pref items fi hlen
    rcases h : items.getLast? with _ | ⟨item, tidset⟩
    · have hnil : items = [] := List.getLast?_eq_none_iff.mp h
      subst hnil
      rfl
    · have hne : items ≠ [] := by
        intro hnil
        subst hnil
        simp at h
      have hlen2 : items.dropLast.length ≤ fuel := by
        rw [List.length_dropLast]
        have : 0 < items.length := List.length_pos.mpr hne
        omega
      simp only [eclatAux, h]
      by_cases hc : ms ≤ tidset.card
      · rw [if_pos hc]
        exact ih pref items.dropLast _ hlen2
      · rw [if_neg hc]
        exact ih pref items.dropLast fi hlen2

/-- In a list sorted ascending by tidset cardinality, the last element
(the first one popped by the basic variant) has maximal cardinality. -/
theorem pairwise_getLast {α : Type} {r : α → α → Prop} (hrefl : ∀ a, r a a) :
    ∀ (l : List α), l.Pairwise r → ∀ e ∈ l, ∀ last, l.getLast? = some last → r e last := by
  intro l
  induction l with
  | nil => intro _ e he; cases he
  | cons x xs ih =>
    intro hp e he last hlast
    cases xs with
    | nil =>
      rcases List.mem_singleton.mp he with rfl
      simp only [List.getLast?_singleton, Option.some.injEq] at hlast
      subst hlast
      exact hrefl e
    | cons y ys =>
      rw [List.getLast?_cons_cons] at hlast
      rcases List.mem_cons.mp he with rfl | he2
      · exact (List.pairwise_cons.mp hp).1 last (List.mem_of_mem_getLast? hlast)
      · exact ih (List.pairwise_cons.mp hp).2 e he2 last hlast

theorem sortByCard_getLast_max (l : List Entry) (e last : Entry)
    (he : e ∈ sortByCard l) (hlast : (sortByCard l).getLast? = some last) :
    e.2.card ≤ last.2.card := by
  have htot : IsTotal Entry (fun a b => a.2.card ≤ b.2.card) := ⟨fun a b => le_total _ _⟩
  have htrans : IsTrans Entry (fun a b => a.2.card ≤ b.2.card) :=
    ⟨fun a b c h1 h2 => le_trans h1 h2⟩
  have hsorted := @List.sorted_insertionSort Entry _ _ htot htrans l
  exact @pairwise_getLast Entry (fun a b => a.2.card ≤ b.2.card)
    (fun a => le_refl _) (sortByCard l) hsorted e he last hlast

/- ## Recursion structure of the improved variant -/

/-- The recursion depth of the improved search is bounded by the number of
candidate entries. -/
theorem eclat_depth_le (ms : ℕ) :
    ∀ (fuel : ℕ) (items : List Entry),
      items.length ≤ fuel → eclat_depth ms fuel items ≤ items.length := by
  intro fuel
  induction fuel with
  | zero => intro items h; simp [eclat_depth]
  | succ fuel ih =>
    intro items hlen
    match items with
    | [] => simp [eclat_depth]
    | (b, t) :: later =>
      have hlen2 : later.length ≤ fuel := by
        simp only [List.length_cons] at hlen
        omega
      simp only [eclat_depth, List.length_cons]
      apply max_le
      · by_cases hc : ms ≤ t.card
        · rw [if_pos hc]
          by_cases hs : (build_suffix ms t later).isEmpty
          · simp [hs]
          · simp only [hs, if_neg Bool.false_ne_true]
            have h6 : (build_suffix ms t later).length ≤ fuel :=
              le_trans (length_build_suffix ms t later) hlen2
            have h7 := ih (build_suffix ms t later) h6
            have h8 := length_build_suffix ms t later
            omega
        · rw [if_neg hc]
          omega
      · have h9 := ih later hlen2
        omega

/- ## The claims -/

/-- C1: the claimed cross-mode equivalence `|Full-Capture result| ==
Count-Only result` fails on the code: on the nine-transaction example with
threshold 3 the Full-Capture run of `eclat.py` records 6 itemsets while
`ECLATMiner.mine` returns 9, because `mine` initialises the counter to the
number of frequent 1-itemsets and `eclat_recursive` then increments it
once more for each of them. -/
theorem claim1_cross_mode_divergence :
    (eclat_run exampleDB 3).length = 6 ∧ mine 3 exampleDB = 9 ∧
      mine 3 exampleDB ≠ (eclat_run exampleDB 3).length :=
  ⟨by decide, by decide, by decide⟩

/-- C2: on the nine-transaction example with threshold 3, the Full-Capture
run records exactly the six claimed frequent itemsets with their claimed
supports, but the Count-Only counter returns 9, not the claimed 6. -/
theorem claim2_example_run :
    eclat_run exampleDB 3 =
      [({"Butter"}, 7), ({"Butter", "Milk"}, 4), ({"Butter", "Bread"}, 4),
       ({"Milk"}, 6), ({"Milk", "Bread"}, 4), ({"Bread"}, 6)] ∧
      mine 3 exampleDB = 9 :=
  ⟨by decide, by decide⟩

/-- C3: threshold boundary: a non-empty itemset of dataset items whose
support is exactly `MinSupportCount` is recorded (with that support), and
one whose support is one below the threshold is never recorded — every
comparison in the code is `>=`. -/
theorem claim3_threshold_boundary (db : List (List String)) (ms : ℕ)
    (S : Finset String) (hne : S.Nonempty)
    (hocc : ∀ a ∈ S, ∃ line ∈ db, a ∈ line) :
    ((tids db S).card = ms → (S, ms) ∈ eclat_run db ms) ∧
      ((tids db S).card + 1 = ms → ∀ s, (S, s) ∉ eclat_run db ms) := by
  constructor
  · intro hcard
    rw [mem_eclat_run]
    exact ⟨hne, hocc, hcard.symm, le_rfl⟩
  · intro hcard s hmem
    rw [mem_eclat_run] at hmem
    obtain ⟨-, -, hs, hms⟩ := hmem
    omega

theorem claim3_threshold_boundary_witness :
    ({"Bread", "Butter"}, 4) ∈ eclat_run exampleDB 4 ∧
      ∀ s, ({"Jam"}, s) ∉ eclat_run exampleDB 3 :=
  ⟨(claim3_threshold_boundary exampleDB 4 {"Bread", "Butter"} (by decide)
      (by decide)).1 (by decide),
   (claim3_threshold_boundary exampleDB 3 {"Jam"} (by decide) (by decide)).2
      (by decide)⟩

/-- C4: every frequent itemset is generated exactly once: for every
dataset and threshold, no two records of the Full-Capture run of
`eclat.py` carry the same canonical itemset. -/
theorem claim4_uniqueness (db : List (List String)) (ms : ℕ) :
    ((eclat_run db ms).map Prod.fst).Nodup :=
  nodup_keys_eclat_run db ms

/-- C5: anti-monotonicity of the output: every record carries the true
support of its itemset, and every non-empty subset of a recorded itemset
has support at least that of the itemset — in particular at least
`MinSupportCount`, so every such subset is itself frequent. -/
theorem claim5_anti_monotonicity (db : List (List String)) (ms : ℕ)
    (F : Finset String) (s : ℕ) (hmem : (F, s) ∈ eclat_run db ms)
    (T : Finset String) (hsub : T ⊆ F) (hne : T.Nonempty) :
    s ≤ (tids db T).card ∧ ms ≤ (tids db T).card ∧ s = (tids db F).card := by
  rw [mem_eclat_run] at hmem
  obtain ⟨-, -, hs, hms⟩ := hmem
  have h1 : (tids db F).card ≤ (tids db T).card :=
    Finset.card_le_card (tids_mono db hsub)
  exact ⟨by omega, by omega, hs⟩

theorem claim5_anti_monotonicity_witness :
    4 ≤ (tids exampleDB {"Milk"}).card ∧ 3 ≤ (tids exampleDB {"Milk"}).card ∧
      (4 : ℕ) = (tids exampleDB {"Butter", "Milk"}).card :=
  claim5_anti_monotonicity exampleDB 3 {"Butter", "Milk"} 4 (by decide)
    {"Milk"} (by decide) (by decide)

/-- C6: the improved loader (`load_dataset`) maps each item to exactly the
lines containing it — its reported support equals a naive linear count of
the transactions containing the item — but the basic builder
(`generate_tidsets_from_dataset`) violates the claim: splitting on single
spaces with `readlines`-style lines, it records the blank token produced
by a repeated delimiter as an item, and an item that ends a line keeps its
newline, so the support reported for the bare item is wrong. -/
theorem claim6_builder :
    (∀ (rawLines : List String) (a : String),
        (dget (load_dataset rawLines) a).card =
          rawLines.countP fun line => decide (a ∈ pyTokens line)) ∧
      dget (generate_tidsets_from_dataset ["a  b\n", "b\n"]) "" = {0} ∧
      dget (generate_tidsets_from_dataset ["a  b\n", "b\n"]) "b" = ∅ := by
  refine ⟨?_, by decide, by decide⟩
  intro rawLines a
  rw [load_dataset, dget_generate_tidsets, card_tids_singleton, List.countP_map]
  rfl

/-- C7: for a non-negative operand the two threshold derivations agree:
`math.floor(N * ratio)` equals `int(N * ratio)` (truncation toward zero),
for every transaction count and every ratio in `(0, 1]`. -/
theorem claim7_floor_eq_trunc (n : ℕ) (r : ℚ) (h0 : 0 < r) (h1 : r ≤ 1) :
    min_support_floor n r = min_support_count_int n r := by
  unfold min_support_floor min_support_count_int int_trunc
  have hq0 : (0 : ℚ) ≤ (n : ℚ) * r := mul_nonneg (by positivity) (le_of_lt h0)
  rw [Int.tdiv_eq_ediv (Rat.num_nonneg.mpr hq0) (Int.natCast_nonneg _)]
  exact Rat.floor_def

theorem claim7_floor_eq_trunc_witness :
    min_support_floor 9 (1 / 3 : ℚ) = min_support_count_int 9 (1 / 3 : ℚ) :=
  claim7_floor_eq_trunc 9 (1 / 3) (by norm_num) (by norm_num)

/-- C8: termination structure of both search procedures: a call on an
empty candidate list performs no work; the suffix passed to every
recursive call is strictly shorter than the caller's candidate list (in
both variants, sorted or not); and the recursion depth is bounded by the
number of candidates — for the improved pipeline, by the number of
distinct frequent items (the candidate names being distinct). -/
theorem claim8_termination :
    (∀ (ms fuel : ℕ) (pref : List String) (fi : List (Finset String × ℕ)),
        eclatAux ms fuel pref [] fi = ([], fi)) ∧
      (∀ (ms fuel : ℕ) (pref : List String), eclat_recursive ms fuel pref [] = 0) ∧
      (∀ (ms : ℕ) (t : Finset ℕ) (e : Entry) (later : List Entry),
        (sortByCard (build_suffix ms t later)).length < (e :: later).length ∧
          (build_suffix ms t later).length < (e :: later).length) ∧
      (∀ (ms : ℕ) (l : List Entry), eclat_depth ms l.length l ≤ l.length) ∧
      (∀ (db : List (List String)) (ms : ℕ),
        eclat_depth ms (mine_candidates db ms).length (mine_candidates db ms) ≤
            (mine_candidates db ms).length ∧
          ((mine_candidates db ms).map Prod.fst).Nodup) := by
  refine ⟨?_, ?_, ?_, ?_, ?_⟩
  · intro ms fuel pref fi
    cases fuel <;> rfl
  · intro ms fuel pref
    cases fuel <;> rfl
  · intro ms t e later
    constructor
    · rw [length_sortByCard, List.length_cons]
      exact Nat.lt_succ_of_le (length_build_suffix ms t later)
    · rw [List.length_cons]
      exact Nat.lt_succ_of_le (length_build_suffix ms t later)
  · intro ms l
    exact eclat_depth_le ms l.length l le_rfl
  · intro db ms
    refine ⟨eclat_depth_le ms _ _ le_rfl, ?_⟩
    have h1 : (((generate_tidsets db).filter fun e => ms ≤ e.2.card).map
        Prod.fst).Sublist ((generate_tidsets db).map Prod.fst) :=
      (List.filter_sublist _).map Prod.fst
    exact ((map_fst_sortByCard_perm _).nodup_iff).mpr
      (h1.nodup (nodup_keys_generate_tidsets db))

/-- C9: on a source that opens but contains zero lines, `load_dataset`
aborts (the loop variable `tid` is never bound, so the epilogue raises and
the generic handler exits), and every successful load reports a positive
transaction count equal to the number of lines — an empty dataset never
yields a successful run. -/
theorem claim9_empty_dataset (rawLines : List String) (d : Dict) (n : ℕ) :
    load_dataset_run ([] : List String) = Except.error () ∧
      (load_dataset_run rawLines = Except.ok (d, n) →
        n = rawLines.length ∧ 0 < n) :=
  ⟨rfl, fun h => load_dataset_run_ok rawLines d n h⟩

theorem claim9_empty_dataset_witness :
    load_dataset_run ([] : List String) = Except.error () ∧
      ((1 : ℕ) = ["x"].length ∧ 0 < (1 : ℕ)) :=
  ⟨(claim9_empty_dataset ["x"] [("x", {0})] 1).1,
   (claim9_empty_dataset ["x"] [("x", {0})] 1).2 rfl⟩

/-- C10: the basic variant consumes its candidate list destructively: the
`items` list a caller hands to `eclat` is empty when the call returns, and
entries are processed by popping from the end, so with an
ascending-by-support list the entry of maximal support is popped first. -/
theorem claim10_destructive_pop (ms : ℕ) (pref : List String)
    (items : List Entry) (fi : List (Finset String × ℕ)) :
    (eclat ms pref items fi).1 = [] ∧
      (∀ (l : List Entry) (e last : Entry), e ∈ sortByCard l →
        (sortByCard l).getLast? = some last → e.2.card ≤ last.2.card) :=
  ⟨eclatAux_fst ms items.length pref items fi le_rfl,
   fun l e last he hlast => sortByCard_getLast_max l e last he hlast⟩

theorem claim10_destructive_pop_witness :
    (eclat 3 [] [("a", ({0, 1} : Finset ℕ))] []).1 = [] ∧
      ("a", ({0, 1} : Finset ℕ)).2.card ≤ ("b", ({0, 1, 2} : Finset ℕ)).2.card := by
  have h := claim10_destructive_pop 3 [] [("a", ({0, 1} : Finset ℕ))] []
  exact ⟨h.1, h.2 [("a", {0, 1}), ("b", {0, 1, 2})] ("a", {0, 1}) ("b", {0, 1, 2})
    (by decide) (by decide)⟩
